import Mathlib

/-!
Shallow embedding of the radio-playlist synchronisation program
(`handler.py`, `internal_types.py`, `radio_6_music.py`, `spotify.py`)
and proofs about its reconciliation, resolution and string-handling logic.

Python strings are modelled as lists of characters (`PyStr`); the catalog
search client is modelled as an oracle function from an (artist, track-name)
query to a list of catalog tracks; clock reads are modelled as an explicit
timestamp parameter.
-/

namespace RadioSixToSpotify

/-- Python strings modelled as lists of characters. -/
abbrev PyStr := List Char

/-- Embeds the artist record (`ArtistModel` in spotify.py / `Artist` in
internal_types.py): name, uri, id.  Equality is field-wise, as for pydantic
models and frozen dataclasses. -/
structure Artist where
  name : PyStr
  uri : PyStr
  id : PyStr
deriving DecidableEq

/-- Embeds the album record (`AlbumModel` / `Album`). -/
structure Album where
  name : PyStr
  artists : List Artist
  uri : PyStr
  id : PyStr
deriving DecidableEq

/-- Embeds the track record (`TrackModel` / `Track`): album, artists, name,
uri, id, integer popularity.  Field comparisons in the handler (`track.id ==
other.id`, `track.name == other.name`, `track.artists == other.artists`)
are field-wise equality, modelled by decidable structural equality. -/
structure Track where
  album : Album
  artists : List Artist
  name : PyStr
  uri : PyStr
  id : PyStr
  popularity : Int
deriving DecidableEq

/-- Embeds `ScrapedTrack` (radio_6_music.py): a raw scraped (artist, track)
pair. -/
structure ScrapedTrack where
  artist : PyStr
  track : PyStr
deriving DecidableEq

/-- One character of the complement of the regex character class in
`[^ \w+-.]` (handler.py, `has_odd_chars` / `remove_odd_chars`).  The class
contains the space, the word characters `\w` (modelled over ASCII: letters,
digits and the underscore), and the character range from `'+'` (code 43) to
`'.'` (code 46) — a range that also contains the comma (code 44).
`isOddChar c` is true exactly when the regex `[^ \w+-.]` matches `c`, i.e.
when `c` lies outside the class. -/
def isOddChar (c : Char) : Bool :=
  !(c = ' ' || c.isAlphanum || c = '_' || ('+' ≤ c && c ≤ '.'))

/-- Embeds `has_odd_chars` (handler.py): `re.search` of the single-character
pattern succeeds exactly when some character of the string matches it. -/
def hasOddChars (s : PyStr) : Bool :=
  s.any isOddChar

/-- Embeds `remove_odd_chars` (handler.py): `re.sub` with empty replacement
deletes every character matched by the single-character pattern, keeping all
other characters in order. -/
def removeOddChars (s : PyStr) : PyStr :=
  s.filter (fun c => !isOddChar c)

/-- Stable insertion used to model Python's `sorted`: `t` is placed after
every already-placed element of strictly greater popularity and before the
first element whose popularity is not greater (so among equal keys, earlier
input elements stay earlier). -/
def insertDescPop (t : Track) : List Track → List Track
  | [] => [t]
  | u :: us =>
    if t.popularity < u.popularity then u :: insertDescPop t us
    else t :: u :: us

/-- Models `sorted(tracks, key=lambda x: x.popularity, reverse=True)`
(handler.py line 97): Python's sort is stable, also with `reverse=True`, so
elements of equal popularity keep their original relative order. -/
def sortDescPop : List Track → List Track
  | [] => []
  | t :: ts => insertDescPop t (sortDescPop ts)

/-- Embeds `get_scraped_track_alphanumeric` (handler.py): search again with
the special characters removed from both fields. -/
def getScrapedTrackAlphanumeric (search : PyStr → PyStr → List Track)
    (st : ScrapedTrack) : List Track :=
  search (removeOddChars st.artist) (removeOddChars st.track)

/-- Embeds `get_track_from_spotify` (handler.py), additionally recording the
(artist, track-name) argument pair of every call made to the search client,
in order.  The control flow mirrors the source: search verbatim; if the
result is empty and either field has a special character, search once more
via `get_scraped_track_alphanumeric`; finally return the head of the
popularity-sorted result list, or nothing when that list is empty. -/
def getTrackFromSpotifyWithQueries (search : PyStr → PyStr → List Track)
    (st : ScrapedTrack) : Option Track × List (PyStr × PyStr) :=
  let tracks := search st.artist st.track
  if tracks.isEmpty && (hasOddChars st.artist || hasOddChars st.track) then
    ((sortDescPop (getScrapedTrackAlphanumeric search st)).head?,
      [(st.artist, st.track), (removeOddChars st.artist, removeOddChars st.track)])
  else
    ((sortDescPop tracks).head?, [(st.artist, st.track)])

/-- The resolved track of `get_track_from_spotify` (handler.py). -/
def getTrackFromSpotify (search : PyStr → PyStr → List Track)
    (st : ScrapedTrack) : Option Track :=
  (getTrackFromSpotifyWithQueries search st).1

/-- The (artist, track-name) queries issued to the search client by one run
of `get_track_from_spotify`. -/
def getTrackQueries (search : PyStr → PyStr → List Track)
    (st : ScrapedTrack) : List (PyStr × PyStr) :=
  (getTrackFromSpotifyWithQueries search st).2

/-- The candidate list the resolver actually selects from: the verbatim
search result, or the fallback search result when the verbatim result was
empty and a field contains a special character. -/
def candidateList (search : PyStr → PyStr → List Track)
    (st : ScrapedTrack) : List Track :=
  let tracks := search st.artist st.track
  if tracks.isEmpty && (hasOddChars st.artist || hasOddChars st.track) then
    getScrapedTrackAlphanumeric search st
  else
    tracks

/-- Embeds `get_scraped_tracks_from_spotify` (handler.py): resolve each
mention in order and append every successful resolution to a plain list. -/
def getScrapedTracksFromSpotify (search : PyStr → PyStr → List Track) :
    List ScrapedTrack → List Track
  | [] => []
  | st :: rest =>
    match getTrackFromSpotify search st with
    | some t => t :: getScrapedTracksFromSpotify search rest
    | none => getScrapedTracksFromSpotify search rest

/-- The per-element match test of `is_track_in_tracks` (handler.py lines
124-127): equal id, or equal name together with equal artist list. -/
def tracksMatch (t u : Track) : Bool :=
  (t.id == u.id) || ((t.name == u.name) && (t.artists == u.artists))

/-- Embeds `is_track_in_tracks` (handler.py): linear scan with early exit,
matching on equal id, or on equal name together with equal artist list. -/
def isTrackInTracks (track : Track) : List Track → Bool
  | [] => false
  | u :: us =>
    let idMatch := track.id == u.id
    let nameAndArtistMatch := (track.name == u.name) && (track.artists == u.artists)
    if idMatch || nameAndArtistMatch then true
    else isTrackInTracks track us

/-- Embeds `get_tracks_to_add_and_remove_from_playlist` (handler.py): two
append loops over the input lists; returns
`(tracks_to_add, tracks_to_remove)`. -/
def getTracksToAddAndRemove (spotifyTracks scrapedTracks : List Track) :
    List Track × List Track :=
  let tracksToRemove :=
    spotifyTracks.foldl
      (fun acc track =>
        if !isTrackInTracks track scrapedTracks then acc ++ [track] else acc) []
  let tracksToAdd :=
    scrapedTracks.foldl
      (fun acc track =>
        if !isTrackInTracks track spotifyTracks then acc ++ [track] else acc) []
  (tracksToAdd, tracksToRemove)

/-- Models Python's `str.split(sep)` for a substring separator: scan left to
right, cut at each leftmost non-overlapping occurrence of `sep`, and return
the list of the segments between the cuts (with empty segments kept, and
`[s]` when `sep` does not occur).  The `sep ≠ []` guard in the first branch
is a termination artifact; the separator used by the program is the
non-empty marker string. -/
def splitOnSub (sep : PyStr) (s : PyStr) : List PyStr :=
  match s with
  | [] => [[]]
  | c :: rest =>
    if sep ≠ [] ∧ sep.isPrefixOf (c :: rest) then
      [] :: splitOnSub sep (List.drop sep.length (c :: rest))
    else
      match splitOnSub sep rest with
      | [] => [[c]]
      | t :: ts => (c :: t) :: ts
termination_by s.length
decreasing_by
  · simp only [List.length_drop, List.length_cons]
    rename_i h
    have : 1 ≤ sep.length := by
      cases hs : sep with
      | nil => exact absurd hs h.1
      | cons a as => simp
    omega
  · simp

/-- The substring `sep` occurs somewhere inside `s`. -/
def occursIn (sep s : PyStr) : Prop :=
  ∃ pre post, s = pre ++ sep ++ post

/-- The literal marker `"Last updated: "` (handler.py line 32). -/
def lastUpdatedMarker : PyStr :=
  "Last updated: ".toList

/-- Embeds `get_updated_playlist_description` (handler.py): split the
description on the marker, drop the final segment, re-join the remaining
segments with the marker, and append `" Last updated: "` (with a leading
space, from the f-string) followed by the freshly formatted timestamp `ts`
(the clock read is modelled by the `ts` parameter). -/
def getUpdatedPlaylistDescription (description ts : PyStr) : PyStr :=
  let descriptionWithoutDate :=
    List.intercalate lastUpdatedMarker
      ((splitOnSub lastUpdatedMarker description).dropLast)
  descriptionWithoutDate ++ " Last updated: ".toList ++ ts

/-- A mutating catalog API call issued by the handler. -/
inductive ApiCall where
  | addToPlaylist : List PyStr → ApiCall
  | removeFromPlaylist : List PyStr → ApiCall
  | changePlaylistDetails : PyStr → ApiCall
deriving DecidableEq

/-- Embeds the mutating tail of `handler` (handler.py lines 169-193): with
the playlist's current tracks and description, the scraped mentions and the
search client as inputs, the list of mutating API calls issued, in order —
an add call when `tracks_to_add` is non-empty (truthiness test on the
list), a remove call when `tracks_to_remove` is non-empty, and always the
description update. -/
def handlerApiCalls (search : PyStr → PyStr → List Track)
    (spotifyTracks : List Track) (mentions : List ScrapedTrack)
    (description ts : PyStr) : List ApiCall :=
  let scrapedTracks := getScrapedTracksFromSpotify search mentions
  let p := getTracksToAddAndRemove spotifyTracks scrapedTracks
  (if p.1 ≠ [] then [ApiCall.addToPlaylist (p.1.map Track.uri)] else [])
    ++ (if p.2 ≠ [] then [ApiCall.removeFromPlaylist (p.2.map Track.uri)] else [])
    ++ [ApiCall.changePlaylistDetails (getUpdatedPlaylistDescription description ts)]

/-- Modelled from the spec: `reconcile(current, existing, remove_outdated)`
with `to_add = current − existing`, and `to_remove = existing − current`
when `remove_outdated` is true and empty when it is false; set difference
is by track identity, i.e. by equal catalog track ids.  Stated for
comparison with the reconciler found in the source,
`getTracksToAddAndRemove`, which takes no such flag. -/
def reconcileSpecModel (current existing : List Track)
    (removeOutdated : Bool) : List Track × List Track :=
  (current.filter (fun t => !(existing.any (fun u => u.id == t.id))),
    if removeOutdated then
      existing.filter (fun t => !(current.any (fun u => u.id == t.id)))
    else [])

/-- Modelled from the spec: the special characters are all characters other
than ASCII letters, digits, the underscore, the space, `'+'`, `'-'` and
`'.'` — a set that does not contain the comma.  Stated for comparison with
`isOddChar`, the class actually used by the source. -/
def specSpecialChar (c : Char) : Bool :=
  !(c.isAlphanum || c = '_' || c = ' ' || c = '+' || c = '-' || c = '.')

/-- Modelled from the spec: strict lexicographic order on id strings, by
character code. -/
def specIdLexLt : PyStr → PyStr → Bool
  | [], [] => false
  | [], _ :: _ => true
  | _ :: _, [] => false
  | c :: cs, d :: ds => if c < d then true else if d < c then false else specIdLexLt cs ds

/-- Modelled from the spec: `u` strictly precedes `t` in the spec's
candidate order when `u` has greater popularity, or equal popularity and
lexicographically greater id. -/
def specBefore (u t : Track) : Bool :=
  decide (t.popularity < u.popularity)
    || (decide (t.popularity = u.popularity) && specIdLexLt t.id u.id)

/-- Modelled from the spec: insertion step of sorting by descending
popularity with ties broken by descending id. -/
def specInsertSorted (t : Track) : List Track → List Track
  | [] => [t]
  | u :: us => if specBefore u t then u :: specInsertSorted t us else t :: u :: us

/-- Modelled from the spec: sort candidates by descending popularity score,
breaking ties by descending catalog id (lexicographic on the id string). -/
def specSortCandidates : List Track → List Track
  | [] => []
  | t :: ts => specInsertSorted t (specSortCandidates ts)

/-- Modelled from the spec: the resolver's choice is the top candidate of
the popularity-then-id descending sort. -/
def selectTrackSpecModel (l : List Track) : Option Track :=
  (specSortCandidates l).head?

/-- A concrete album used by the concrete test inputs below. -/
def exampleAlbum : Album :=
  { name := [], artists := [], uri := [], id := [] }

/-- Concrete track A: id `"a"`. -/
def trackA : Track :=
  { album := exampleAlbum, artists := [], name := ['A'], uri := ['u', 'a'],
    id := ['a'], popularity := 10 }

/-- Concrete track B: id `"b"`. -/
def trackB : Track :=
  { album := exampleAlbum, artists := [], name := ['B'], uri := ['u', 'b'],
    id := ['b'], popularity := 20 }

/-- Concrete track C: id `"c"`. -/
def trackC : Track :=
  { album := exampleAlbum, artists := [], name := ['C'], uri := ['u', 'c'],
    id := ['c'], popularity := 30 }

/-- Concrete track D: id `"d"`. -/
def trackD : Track :=
  { album := exampleAlbum, artists := [], name := ['D'], uri := ['u', 'd'],
    id := ['d'], popularity := 40 }

/-- Concrete track with id `"a"` and popularity 7, used for popularity
ties. -/
def trackTieA : Track :=
  { album := exampleAlbum, artists := [], name := ['E'], uri := ['u', 'e'],
    id := ['a'], popularity := 7 }

/-- Concrete track with id `"b"` and the same popularity 7. -/
def trackTieB : Track :=
  { album := exampleAlbum, artists := [], name := ['F'], uri := ['u', 'f'],
    id := ['b'], popularity := 7 }

/-- Concrete track with id `"x"`, name `"n"` and one artist `"m"`. -/
def sameSongTrack1 : Track :=
  { album := exampleAlbum, artists := [{ name := ['m'], uri := [], id := ['i'] }],
    name := ['n'], uri := ['u', '1'], id := ['x'], popularity := 1 }

/-- Concrete track with a different id `"y"` but the same name and the same
artist list as `sameSongTrack1`. -/
def sameSongTrack2 : Track :=
  { album := exampleAlbum, artists := [{ name := ['m'], uri := [], id := ['i'] }],
    name := ['n'], uri := ['u', '2'], id := ['y'], popularity := 2 }

/-- Concrete scraped mention with plain alphanumeric fields. -/
def mentionQ : ScrapedTrack :=
  { artist := ['q'], track := ['r'] }

/-- A second, distinct scraped mention with plain alphanumeric fields. -/
def mentionS : ScrapedTrack :=
  { artist := ['s'], track := ['t'] }

/-- Concrete scraped mention whose artist field contains an apostrophe (a
special character). -/
def mentionApos : ScrapedTrack :=
  { artist := ['a', '\''], track := ['r'] }

/-- A search client always returning the two tied-popularity tracks. -/
def tieOracle : PyStr → PyStr → List Track :=
  fun _ _ => [trackTieA, trackTieB]

/-- A search client always returning the single track `trackA`. -/
def singleOracle : PyStr → PyStr → List Track :=
  fun _ _ => [trackA]

/-- A search client that finds `trackA` only under the artist query `"a"`
(the apostrophe-stripped form of `mentionApos`'s artist) and nothing
otherwise. -/
def fallbackOracle : PyStr → PyStr → List Track :=
  fun artist _ => if artist = ['a'] then [trackA] else []

/-- The characters of the regex range from `'+'` (code 43) to `'.'`
(code 46) are exactly `'+'`, `','`, `'-'` and `'.'`. -/
theorem plus_to_dot_range (c : Char) :
    ('+' ≤ c && c ≤ '.') = (c = '+' || c = ',' || c = '-' || c = '.') := by
  rw [Bool.eq_iff_iff]
  simp only [Bool.and_eq_true, Bool.or_eq_true, decide_eq_true_eq]
  constructor
  · rintro ⟨h1, h2⟩
    have h1' : 43 ≤ c.val.toNat := h1
    have h2' : c.val.toNat ≤ 46 := h2
    have hv : c.val.toNat = 43 ∨ c.val.toNat = 44 ∨ c.val.toNat = 45 ∨ c.val.toNat = 46 := by
      omega
    rcases hv with h | h | h | h
    · have hc : c = '+' := Char.eq_of_val_eq (UInt32.ext (by simpa using h))
      tauto
    · have hc : c = ',' := Char.eq_of_val_eq (UInt32.ext (by simpa using h))
      tauto
    · have hc : c = '-' := Char.eq_of_val_eq (UInt32.ext (by simpa using h))
      tauto
    · have hc : c = '.' := Char.eq_of_val_eq (UInt32.ext (by simpa using h))
      tauto
  · rintro (((rfl | rfl) | rfl) | rfl) <;> exact ⟨by decide, by decide⟩

/-- An append-accumulating fold is a filter. -/
theorem foldl_if_append {α : Type} (p : α → Bool) :
    ∀ (l acc : List α),
      l.foldl (fun a t => if p t then a ++ [t] else a) acc = acc ++ l.filter p := by
  intro l
  induction l with
  | nil => intro acc; simp
  | cons x xs ih =>
    intro acc
    by_cases hx : p x
    · simp [List.foldl_cons, hx, ih, List.filter_cons]
    · simp [List.foldl_cons, hx, ih, List.filter_cons]

/-- The scan of `is_track_in_tracks` is the `any` of the per-element match
test. -/
theorem isTrackInTracks_eq_any (t : Track) :
    ∀ l : List Track, isTrackInTracks t l = l.any (tracksMatch t) := by
  intro l
  induction l with
  | nil => rfl
  | cons u us ih =>
    simp only [isTrackInTracks, tracksMatch, List.any_cons, ← ih]
    by_cases h : (t.id == u.id || (t.name == u.name && t.artists == u.artists)) = true
    · simp [h]
    · simp [h]

/-- Inserting into a list never yields the empty list. -/
theorem insertDescPop_ne_nil (t : Track) (l : List Track) :
    insertDescPop t l ≠ [] := by
  cases l with
  | nil => simp [insertDescPop]
  | cons u us =>
    simp only [insertDescPop]
    by_cases h : t.popularity < u.popularity
    · simp [h]
    · simp [h]

/-- The stable descending sort of a non-empty list is non-empty. -/
theorem sortDescPop_eq_nil_iff (l : List Track) :
    sortDescPop l = [] ↔ l = [] := by
  cases l with
  | nil => simp [sortDescPop]
  | cons t ts =>
    simp only [sortDescPop]
    constructor
    · intro h
      exact absurd h (insertDescPop_ne_nil t (sortDescPop ts))
    · intro h
      exact absurd h (by simp)

/-- The head of the stable descending sort has popularity greater than or
equal to the popularity of every input element. -/
theorem sortDescPop_head_max :
    ∀ (l : List Track) (t : Track), (sortDescPop l).head? = some t →
      ∀ u ∈ l, u.popularity ≤ t.popularity := by
  intro l
  induction l with
  | nil => intro t ht; simp [sortDescPop] at ht
  | cons x xs ih =>
    intro t ht
    rw [sortDescPop] at ht
    cases hs : sortDescPop xs with
    | nil =>
      have hxs : xs = [] := (sortDescPop_eq_nil_iff xs).mp hs
      subst hxs
      simp [sortDescPop, insertDescPop] at ht
      subst ht
      simp
    | cons y ys =>
      rw [hs] at ht
      have hyall : ∀ u ∈ xs, u.popularity ≤ y.popularity :=
        ih y (by rw [hs]; rfl)
      simp only [insertDescPop] at ht
      by_cases hcmp : x.popularity < y.popularity
      · rw [if_pos hcmp] at ht
        simp only [List.head?_cons, Option.some.injEq] at ht
        subst ht
        intro u hu
        rcases List.mem_cons.mp hu with rfl | hu
        · exact le_of_lt hcmp
        · exact hyall u hu
      · rw [if_neg hcmp] at ht
        simp only [List.head?_cons, Option.some.injEq] at ht
        subst ht
        intro u hu
        rcases List.mem_cons.mp hu with rfl | hu
        · exact le_refl _
        · exact le_trans (hyall u hu) (le_of_not_lt hcmp)

/-- The head of the stable descending sort is the first input element of
maximal popularity: every input element strictly before it has strictly
smaller popularity. -/
theorem sortDescPop_head_first :
    ∀ (l : List Track) (t : Track), (sortDescPop l).head? = some t →
      ∃ l₁ l₂, l = l₁ ++ t :: l₂ ∧ ∀ u ∈ l₁, u.popularity < t.popularity := by
  intro l
  induction l with
  | nil => intro t ht; simp [sortDescPop] at ht
  | cons x xs ih =>
    intro t ht
    rw [sortDescPop] at ht
    cases hs : sortDescPop xs with
    | nil =>
      have hxs : xs = [] := (sortDescPop_eq_nil_iff xs).mp hs
      subst hxs
      simp [sortDescPop, insertDescPop] at ht
      subst ht
      exact ⟨[], [], rfl, by simp⟩
    | cons y ys =>
      rw [hs] at ht
      simp only [insertDescPop] at ht
      by_cases hcmp : x.popularity < y.popularity
      · rw [if_pos hcmp] at ht
        simp only [List.head?_cons, Option.some.injEq] at ht
        obtain ⟨l₁, l₂, hsplit, hlt⟩ := ih y (by rw [hs]; rfl)
        subst ht
        refine ⟨x :: l₁, l₂, by rw [hsplit]; rfl, ?_⟩
        intro u hu
        rcases List.mem_cons.mp hu with rfl | hu
        · exact hcmp
        · exact hlt u hu
      · rw [if_neg hcmp] at ht
        simp only [List.head?_cons, Option.some.injEq] at ht
        subst ht
        exact ⟨[], xs, rfl, by simp⟩

/-- The resolved track is the head of the stable descending sort of the
candidate list. -/
theorem getTrackFromSpotify_eq_head (search : PyStr → PyStr → List Track)
    (st : ScrapedTrack) :
    getTrackFromSpotify search st = (sortDescPop (candidateList search st)).head? := by
  unfold getTrackFromSpotify getTrackFromSpotifyWithQueries candidateList
  by_cases h : (search st.artist st.track).isEmpty
      && (hasOddChars st.artist || hasOddChars st.track)
  · simp only [h]
    rfl
  · simp only [h]
    rfl

theorem splitOnSub_ne_nil (sep s : PyStr) : splitOnSub sep s ≠ [] := by
  induction s using splitOnSub.induct sep with
  | case1 => simp [splitOnSub]
  | case2 c rest h ih =>
    rw [splitOnSub]
    simp [h]
  | case3 c rest h hsplit ih =>
    rw [splitOnSub]
    simp only [if_neg h, hsplit]
    simp
  | case4 c rest h t ts hsplit ih =>
    rw [splitOnSub]
    simp only [if_neg h, hsplit]
    simp

theorem intercalate_cons_two (sep x : PyStr) (y : PyStr) (ys : List PyStr) :
    List.intercalate sep (x :: y :: ys) = x ++ sep ++ List.intercalate sep (y :: ys) := by
  simp [List.intercalate, List.intersperse]

theorem intercalate_splitOnSub (sep s : PyStr) :
    List.intercalate sep (splitOnSub sep s) = s := by
  induction s using splitOnSub.induct sep with
  | case1 => simp [splitOnSub, List.intercalate]
  | case2 c rest h ih =>
    rw [splitOnSub]
    simp only [if_pos h]
    rcases List.isPrefixOf_iff_prefix.mp h.2 with ⟨post, hpost⟩
    have hne := splitOnSub_ne_nil sep (List.drop sep.length (c :: rest))
    cases hsp : splitOnSub sep (List.drop sep.length (c :: rest)) with
    | nil => exact absurd hsp hne
    | cons t ts =>
      rw [intercalate_cons_two]
      rw [hsp] at ih
      rw [ih]
      have hdrop : List.drop sep.length (c :: rest) = post := by
        have := congrArg (List.drop sep.length) hpost
        simpa using this.symm
      rw [hdrop, ← hpost]
      simp
  | case3 c rest h hsplit ih =>
    exact absurd hsplit (splitOnSub_ne_nil sep rest)
  | case4 c rest h t ts hsplit ih =>
    rw [splitOnSub]
    simp only [if_neg h, hsplit]
    rw [hsplit] at ih
    cases ts with
    | nil =>
      simp [List.intercalate] at ih ⊢
      simp [ih]
    | cons t2 ts2 =>
      rw [intercalate_cons_two]
      rw [intercalate_cons_two] at ih
      rw [← ih]
      simp


theorem getLast?_cons_ne_nil (x : PyStr) (l : List PyStr) (h : l ≠ []) :
    (x :: l).getLast? = l.getLast? := by
  cases l with
  | nil => exact absurd rfl h
  | cons y ys => exact List.getLast?_cons_cons

theorem splitOnSub_of_not_occurs (sep s : PyStr)
    (hno : ¬ occursIn sep s) : splitOnSub sep s = [s] := by
  induction s using splitOnSub.induct sep with
  | case1 => simp [splitOnSub]
  | case2 c rest h ih =>
    exfalso
    rcases List.isPrefixOf_iff_prefix.mp h.2 with ⟨post, hpost⟩
    exact hno ⟨[], post, by simpa using hpost.symm⟩
  | case3 c rest h hsplit ih =>
    exact absurd hsplit (splitOnSub_ne_nil sep rest)
  | case4 c rest h t ts hsplit ih =>
    have hnorest : ¬ occursIn sep rest := by
      rintro ⟨pre, post, rfl⟩
      exact hno ⟨c :: pre, post, by simp⟩
    have hts : t :: ts = [rest] := by rw [← hsplit, ih hnorest]
    rw [splitOnSub, if_neg h, hsplit]
    rw [hts]

theorem splitOnSub_getLast_not_occurs (sep s : PyStr) (hsep : sep ≠ []) :
    ∀ t : PyStr, (splitOnSub sep s).getLast? = some t → ¬ occursIn sep t := by
  induction s using splitOnSub.induct sep with
  | case1 =>
    intro t hlast
    simp [splitOnSub] at hlast
    subst hlast
    rintro ⟨pre, post, hc⟩
    have := congrArg List.length hc
    simp at this
    have : sep.length = 0 := by omega
    exact hsep (List.length_eq_zero.mp this)
  | case2 c rest h ih =>
    intro t hlast
    rw [splitOnSub, if_pos h] at hlast
    have hne := splitOnSub_ne_nil sep (List.drop sep.length (c :: rest))
    rw [getLast?_cons_ne_nil _ _ hne] at hlast
    exact ih t hlast
  | case3 c rest h hsplit ih =>
    exact absurd hsplit (splitOnSub_ne_nil sep rest)
  | case4 c rest h t' ts hsplit ih =>
    intro t hlast
    rw [splitOnSub, if_neg h, hsplit] at hlast
    cases ts with
    | nil =>
      simp at hlast
      subst hlast
      have hrest : rest = t' := by
        have hrt := intercalate_splitOnSub sep rest
        rw [hsplit] at hrt
        simpa [List.intercalate] using hrt.symm
      rintro ⟨pre, post, hocc⟩
      cases pre with
      | nil =>
        exact h ⟨hsep, List.isPrefixOf_iff_prefix.mpr ⟨post, by simp only [List.nil_append] at hocc; rw [hrest, ← hocc]⟩⟩
      | cons p ps =>
        have htail : rest = ps ++ sep ++ post := by
          have := congrArg List.tail hocc
          simpa [hrest] using this
        have hlast2 : (splitOnSub sep rest).getLast? = some rest := by
          rw [hsplit, hrest]
          rfl
        exact ih rest hlast2 ⟨ps, post, htail⟩
    | cons t2 ts2 =>
      rw [List.getLast?_cons_cons] at hlast
      have hlast2 : (splitOnSub sep rest).getLast? = some t := by
        rw [hsplit, getLast?_cons_ne_nil _ _ (by simp)]
        exact hlast
      exact ih t hlast2

theorem intercalate_append_last (sep x : PyStr) :
    ∀ ys : List PyStr, ys ≠ [] →
      List.intercalate sep (ys ++ [x]) = List.intercalate sep ys ++ sep ++ x := by
  intro ys
  induction ys with
  | nil => intro h; exact absurd rfl h
  | cons y ys ih =>
    intro _
    cases ys with
    | nil => simp [List.intercalate, List.intersperse]
    | cons z zs =>
      show List.intercalate sep (y :: z :: (zs ++ [x]))
          = List.intercalate sep (y :: z :: zs) ++ sep ++ x
      have e1 : List.intercalate sep (z :: (zs ++ [x]))
          = List.intercalate sep (z :: zs) ++ sep ++ x := ih (by simp)
      conv_lhs => rw [intercalate_cons_two]
      rw [e1]
      conv_rhs => rw [intercalate_cons_two]
      simp

theorem marker_ne_nil : lastUpdatedMarker ≠ [] := by
  simp [lastUpdatedMarker]

theorem desc_absent (d ts : PyStr) (hno : ¬ occursIn lastUpdatedMarker d) :
    getUpdatedPlaylistDescription d ts = " Last updated: ".toList ++ ts := by
  unfold getUpdatedPlaylistDescription
  rw [splitOnSub_of_not_occurs _ _ hno]
  simp [List.intercalate]

theorem desc_present (d ts : PyStr) (hocc : occursIn lastUpdatedMarker d) :
    ∃ kept lastSeg : PyStr,
      d = kept ++ lastUpdatedMarker ++ lastSeg
      ∧ ¬ occursIn lastUpdatedMarker lastSeg
      ∧ getUpdatedPlaylistDescription d ts = kept ++ " Last updated: ".toList ++ ts := by
  have hne : splitOnSub lastUpdatedMarker d ≠ [] := splitOnSub_ne_nil _ _
  have hlast : (splitOnSub lastUpdatedMarker d).getLast? =
      some ((splitOnSub lastUpdatedMarker d).getLast hne) :=
    List.getLast?_eq_getLast _ hne
  have hnolast := splitOnSub_getLast_not_occurs lastUpdatedMarker d marker_ne_nil _ hlast
  have hdecomp : (splitOnSub lastUpdatedMarker d).dropLast
      ++ [(splitOnSub lastUpdatedMarker d).getLast hne] = splitOnSub lastUpdatedMarker d :=
    List.dropLast_append_getLast hne
  cases hdl : (splitOnSub lastUpdatedMarker d).dropLast with
  | nil =>
    exfalso
    have hsingle : splitOnSub lastUpdatedMarker d =
        [(splitOnSub lastUpdatedMarker d).getLast hne] := by
      conv_lhs => rw [← hdecomp]
      rw [hdl]
      rfl
    have hd : d = (splitOnSub lastUpdatedMarker d).getLast hne := by
      have hi := intercalate_splitOnSub lastUpdatedMarker d
      rw [hsingle] at hi
      simpa [List.intercalate] using hi.symm
    exact hnolast (hd ▸ hocc)
  | cons i is =>
    refine ⟨List.intercalate lastUpdatedMarker (i :: is),
      (splitOnSub lastUpdatedMarker d).getLast hne, ?_, hnolast, ?_⟩
    · conv_lhs => rw [← intercalate_splitOnSub lastUpdatedMarker d, ← hdecomp, hdl]
      rw [intercalate_append_last _ _ _ (by simp)]
    · unfold getUpdatedPlaylistDescription
      rw [hdl]

/-- The two append loops of the reconciler compute list filters. -/
theorem getTracksToAddAndRemove_eq_filter (spotifyTracks scrapedTracks : List Track) :
    getTracksToAddAndRemove spotifyTracks scrapedTracks =
      (scrapedTracks.filter (fun t => !isTrackInTracks t spotifyTracks),
        spotifyTracks.filter (fun t => !isTrackInTracks t scrapedTracks)) := by
  unfold getTracksToAddAndRemove
  rw [foldl_if_append, foldl_if_append]
  simp

/-- C1 (amended): the reconciler has no `remove_outdated` flag; on playlist
tracks and scraped tracks it always returns `to_add` = the scraped tracks
matching no playlist track and `to_remove` = the playlist tracks matching no
scraped track (in input order), and on the spec's example it returns
`to_add = [C]`, `to_remove = [D]`. -/
theorem reconciler_computes_add_and_remove :
    (∀ spotifyTracks scrapedTracks : List Track,
      getTracksToAddAndRemove spotifyTracks scrapedTracks =
        (scrapedTracks.filter (fun t => !isTrackInTracks t spotifyTracks),
          spotifyTracks.filter (fun t => !isTrackInTracks t scrapedTracks)))
    ∧ getTracksToAddAndRemove [trackA, trackB, trackD] [trackA, trackB, trackC]
        = ([trackC], [trackD]) := by
  constructor
  · exact getTracksToAddAndRemove_eq_filter
  · decide

/-- C1 (counterexample): the claim's `remove_outdated = false` behaviour
(empty `to_remove`) does not exist in the code: on the spec's own example
the code's reconciler returns `to_remove = [D]`, while the spec-modelled
reconcile with `remove_outdated = false` returns the empty list. -/
theorem reconciler_remove_flag_counterexample :
    (getTracksToAddAndRemove [trackA, trackB, trackD] [trackA, trackB, trackC]).2
        = [trackD]
    ∧ (reconcileSpecModel [trackA, trackB, trackC] [trackA, trackB, trackD] false).2
        = []
    ∧ (getTracksToAddAndRemove [trackA, trackB, trackD] [trackA, trackB, trackC]).2
        ≠ (reconcileSpecModel [trackA, trackB, trackC] [trackA, trackB, trackD] false).2 := by
  exact ⟨by decide, by decide, by decide⟩

/-- C2 (amended): for reconciliation, a track matches a candidate exactly
when their ids are equal, or their names and artist lists are both equal;
and the test depends on no field other than id, name and artists (album,
uri and popularity are irrelevant). -/
theorem track_identity_characterization :
    (∀ t u : Track, isTrackInTracks t [u] = true ↔
      (t.id = u.id ∨ (t.name = u.name ∧ t.artists = u.artists)))
    ∧ (∀ (a₁ a₂ : Album) (arts : List Artist) (n u₁ u₂ i : PyStr) (p₁ p₂ : Int)
        (l : List Track),
        isTrackInTracks ⟨a₁, arts, n, u₁, i, p₁⟩ l
          = isTrackInTracks ⟨a₂, arts, n, u₂, i, p₂⟩ l) := by
  constructor
  · intro t u
    rw [isTrackInTracks_eq_any]
    simp [tracksMatch]
  · intro a₁ a₂ arts n u₁ u₂ i p₁ p₂ l
    rw [isTrackInTracks_eq_any, isTrackInTracks_eq_any]
    rfl

/-- C2 (counterexample): two tracks with different catalog ids but equal
name and equal artist list are treated as the same track, refuting the
claim that identity holds only when the ids are equal. -/
theorem track_identity_counterexample :
    isTrackInTracks sameSongTrack1 [sameSongTrack2] = true
    ∧ sameSongTrack1.id ≠ sameSongTrack2.id := by
  exact ⟨by decide, by decide⟩

/-- C10 (confirmed): every track in `to_add` comes from the scraped list
and matches no playlist track, every track in `to_remove` comes from the
playlist list and matches no scraped track, and no `to_add` track matches
any `to_remove` track. -/
theorem reconciler_outputs_partition :
    ∀ spotifyTracks scrapedTracks : List Track,
      (∀ t ∈ (getTracksToAddAndRemove spotifyTracks scrapedTracks).1,
        t ∈ scrapedTracks ∧ isTrackInTracks t spotifyTracks = false)
      ∧ (∀ t ∈ (getTracksToAddAndRemove spotifyTracks scrapedTracks).2,
        t ∈ spotifyTracks ∧ isTrackInTracks t scrapedTracks = false)
      ∧ (∀ t ∈ (getTracksToAddAndRemove spotifyTracks scrapedTracks).1,
          ∀ r ∈ (getTracksToAddAndRemove spotifyTracks scrapedTracks).2,
          tracksMatch t r = false) := by
  intro spotifyTracks scrapedTracks
  rw [getTracksToAddAndRemove_eq_filter]
  refine ⟨?_, ?_, ?_⟩
  · intro t ht
    rw [List.mem_filter] at ht
    exact ⟨ht.1, by simpa using ht.2⟩
  · intro t ht
    rw [List.mem_filter] at ht
    exact ⟨ht.1, by simpa using ht.2⟩
  · intro t ht r hr
    rw [List.mem_filter] at ht hr
    have hnot : isTrackInTracks t spotifyTracks = false := by simpa using ht.2
    rw [isTrackInTracks_eq_any] at hnot
    have := List.any_eq_false.mp hnot r hr.1
    simpa using this

/-- Witness for C10 at a concrete input. -/
theorem reconciler_outputs_partition_witness :
    trackC ∈ (getTracksToAddAndRemove [trackA, trackD] [trackA, trackC]).1
    ∧ trackD ∈ (getTracksToAddAndRemove [trackA, trackD] [trackA, trackC]).2
    ∧ tracksMatch trackC trackD = false :=
  ⟨by decide, by decide,
    (reconciler_outputs_partition [trackA, trackD] [trackA, trackC]).2.2 trackC
      (by decide) trackD (by decide)⟩

/-- C3 (amended): when the resolver returns a track, that track is the
first candidate of maximal popularity in the candidate list — every earlier
candidate has strictly smaller popularity and no candidate has greater
popularity.  Popularity ties are broken by the stable sort's preservation
of the search result order, not by catalog id. -/
theorem resolver_selects_first_max_popularity :
    ∀ (search : PyStr → PyStr → List Track) (st : ScrapedTrack) (t : Track),
      getTrackFromSpotify search st = some t →
      ∃ l₁ l₂ : List Track,
        candidateList search st = l₁ ++ t :: l₂
        ∧ (∀ u ∈ l₁, u.popularity < t.popularity)
        ∧ (∀ u ∈ candidateList search st, u.popularity ≤ t.popularity) := by
  intro search st t ht
  rw [getTrackFromSpotify_eq_head] at ht
  obtain ⟨l₁, l₂, hsplit, hlt⟩ := sortDescPop_head_first _ t ht
  exact ⟨l₁, l₂, hsplit, hlt, sortDescPop_head_max _ t ht⟩

/-- Witness for C3 at a concrete input. -/
theorem resolver_selects_first_max_popularity_witness :
    getTrackFromSpotify singleOracle mentionQ = some trackA
    ∧ ∃ l₁ l₂ : List Track,
        candidateList singleOracle mentionQ = l₁ ++ trackA :: l₂
        ∧ (∀ u ∈ l₁, u.popularity < trackA.popularity)
        ∧ (∀ u ∈ candidateList singleOracle mentionQ,
            u.popularity ≤ trackA.popularity) :=
  ⟨by decide,
    resolver_selects_first_max_popularity singleOracle mentionQ trackA (by decide)⟩

/-- C3 (counterexample): on two candidates of equal popularity with ids
`"a"` and `"b"` listed in that order, the code returns the first candidate
(id `"a"`), while the spec's descending-id tie-break would choose id
`"b"`. -/
theorem resolver_tiebreak_counterexample :
    getTrackFromSpotify tieOracle mentionQ = some trackTieA
    ∧ selectTrackSpecModel [trackTieA, trackTieB] = some trackTieB
    ∧ (some trackTieA : Option Track) ≠ some trackTieB := by
  exact ⟨by decide, by decide, by decide⟩

/-- C4 (confirmed): the resolver issues exactly two search queries (i.e.
the fallback is issued) precisely when the verbatim search returns zero
results and a field contains a special character; the first query is always
the verbatim (artist, name) pair, and any second query carries both fields
with the special characters stripped. -/
theorem fallback_query_iff :
    ∀ (search : PyStr → PyStr → List Track) (st : ScrapedTrack),
      ((getTrackQueries search st).length = 2
        ↔ (search st.artist st.track = []
            ∧ (hasOddChars st.artist = true ∨ hasOddChars st.track = true)))
      ∧ (getTrackQueries search st).head? = some (st.artist, st.track)
      ∧ ∀ q ∈ (getTrackQueries search st).tail,
          q = (removeOddChars st.artist, removeOddChars st.track) := by
  intro search st
  unfold getTrackQueries getTrackFromSpotifyWithQueries
  by_cases h : ((search st.artist st.track).isEmpty
      && (hasOddChars st.artist || hasOddChars st.track)) = true
  · rw [if_pos h]
    rw [Bool.and_eq_true, List.isEmpty_iff, Bool.or_eq_true] at h
    refine ⟨⟨fun _ => h, fun _ => rfl⟩, rfl, ?_⟩
    intro q hq
    simp at hq
    exact hq
  · rw [if_neg h]
    rw [Bool.and_eq_true, List.isEmpty_iff, Bool.or_eq_true] at h
    refine ⟨⟨?_, fun hc => absurd hc h⟩, rfl, ?_⟩
    · intro hlen
      simp at hlen
    · intro q hq
      simp at hq

/-- Witness for C4 at a concrete input with a fallback query. -/
theorem fallback_query_iff_witness :
    ((['a'] : PyStr), (['r'] : PyStr)) ∈ (getTrackQueries fallbackOracle mentionApos).tail
    ∧ ((['a'] : PyStr), (['r'] : PyStr))
        = (removeOddChars mentionApos.artist, removeOddChars mentionApos.track) :=
  ⟨by decide, (fallback_query_iff fallbackOracle mentionApos).2.2 _ (by decide)⟩

/-- C5 (amended): the class of characters kept by the code is the space,
the (ASCII) word characters, and the four range characters `'+'`, `','`,
`'-'`, `'.'` — the regex range `+-.` also admits the comma; `hasOddChars`
is false exactly when no character of the string is outside that class, and
`removeOddChars` deletes exactly the outside characters, keeping the others
in place and in order (it yields a sublist with the counts of all kept
characters preserved and the counts of removed characters zero). -/
theorem odd_chars_characterization :
    (∀ c : Char, isOddChar c
        = !(c = ' ' || c.isAlphanum || c = '_'
            || c = '+' || c = ',' || c = '-' || c = '.'))
    ∧ (∀ s : PyStr, hasOddChars s = false ↔ ∀ c ∈ s, isOddChar c = false)
    ∧ (∀ s : PyStr, List.Sublist (removeOddChars s) s)
    ∧ (∀ (s : PyStr) (c : Char),
        (removeOddChars s).count c = if isOddChar c then 0 else s.count c) := by
  refine ⟨?_, ?_, ?_, ?_⟩
  · intro c
    unfold isOddChar
    rw [plus_to_dot_range]
    congr 1
    simp [Bool.or_assoc]
  · intro s
    unfold hasOddChars
    constructor
    · intro h c hc
      have := List.any_eq_false.mp h c hc
      simpa using this
    · intro h
      rw [List.any_eq_false]
      intro c hc
      simp [h c hc]
  · intro s
    exact List.filter_sublist s
  · intro s c
    unfold removeOddChars
    by_cases hc : isOddChar c = true
    · rw [if_pos hc]
      rw [List.count_eq_zero]
      intro hmem
      rw [List.mem_filter] at hmem
      simp [hc] at hmem
    · rw [if_neg hc]
      rw [List.count_filter]
      simp at hc
      simp [hc]

/-- Witness for C5 at a concrete input. -/
theorem odd_chars_characterization_witness :
    (removeOddChars ['a', ';']).count ';'
      = if isOddChar ';' then 0 else (['a', ';'] : PyStr).count ';' :=
  odd_chars_characterization.2.2.2 ['a', ';'] ';'

/-- C5 (counterexample): the comma is outside the claim's allowed set, yet
the code treats it as allowed — `has_odd_chars` does not detect it and
`remove_odd_chars` does not remove it — because inside the regex class
`[^ \w+-.]` the text `+-.` is a character range containing the comma. -/
theorem odd_chars_comma_counterexample :
    hasOddChars [','] = false
    ∧ specSpecialChar ',' = true
    ∧ removeOddChars ['a', ',', 'b'] = ['a', ',', 'b'] := by
  exact ⟨by decide, by decide, by decide⟩

/-- C9 (confirmed): `removeOddChars` is idempotent and its output never
contains a special character, so a fallback query can never itself qualify
for a further fallback. -/
theorem remove_odd_chars_idempotent :
    ∀ s : PyStr,
      removeOddChars (removeOddChars s) = removeOddChars s
      ∧ hasOddChars (removeOddChars s) = false := by
  intro s
  constructor
  · unfold removeOddChars
    rw [List.filter_filter]
    simp
  · unfold removeOddChars hasOddChars
    rw [List.any_eq_false]
    intro c hc
    rw [List.mem_filter] at hc
    simpa using hc.2

/-- C6 (amended): when the marker occurs in the description, the update
keeps everything before the final occurrence of the marker, discards the
final segment, and appends a space, the marker and the fresh timestamp;
when the marker is absent, the original description is discarded entirely
and the result is just the space, the marker and the fresh timestamp. -/
theorem description_update_characterization :
    ∀ d ts : PyStr,
      (¬ occursIn lastUpdatedMarker d →
        getUpdatedPlaylistDescription d ts = " Last updated: ".toList ++ ts)
      ∧ (occursIn lastUpdatedMarker d →
        ∃ kept lastSeg : PyStr,
          d = kept ++ lastUpdatedMarker ++ lastSeg
          ∧ ¬ occursIn lastUpdatedMarker lastSeg
          ∧ getUpdatedPlaylistDescription d ts
              = kept ++ " Last updated: ".toList ++ ts) := by
  intro d ts
  exact ⟨desc_absent d ts, desc_present d ts⟩

/-- Witness for C6 at the spec's example description. -/
theorem description_update_characterization_witness :
    occursIn lastUpdatedMarker
      "Some text. Last updated: 01-01-2020 00:00:00 (GMT)".toList
    ∧ ∃ kept lastSeg : PyStr,
        "Some text. Last updated: 01-01-2020 00:00:00 (GMT)".toList
          = kept ++ lastUpdatedMarker ++ lastSeg
        ∧ ¬ occursIn lastUpdatedMarker lastSeg
        ∧ getUpdatedPlaylistDescription
            "Some text. Last updated: 01-01-2020 00:00:00 (GMT)".toList "ts".toList
            = kept ++ " Last updated: ".toList ++ "ts".toList :=
  ⟨⟨"Some text. ".toList, "01-01-2020 00:00:00 (GMT)".toList, by decide⟩,
    (description_update_characterization
        "Some text. Last updated: 01-01-2020 00:00:00 (GMT)".toList "ts".toList).2
      ⟨"Some text. ".toList, "01-01-2020 00:00:00 (GMT)".toList, by decide⟩⟩

/-- C6 (counterexample): on a description without the marker, the original
text is not kept — the result is just the appended marker and timestamp,
with no `'H'` of `"Hello"` surviving — refuting the claim that the entire
original description is kept unchanged when the marker is absent. -/
theorem description_marker_absent_counterexample :
    getUpdatedPlaylistDescription "Hello".toList "01".toList
        = " Last updated: 01".toList
    ∧ (getUpdatedPlaylistDescription "Hello".toList "01".toList).count 'H' = 0 := by
  have h : getUpdatedPlaylistDescription "Hello".toList "01".toList
      = " Last updated: 01".toList := by
    simp [getUpdatedPlaylistDescription, splitOnSub, lastUpdatedMarker, List.intercalate]
  exact ⟨h, by rw [h]; decide⟩

/-- C7 (amended): the current-track collection is a plain list with one
entry per successfully resolved mention, in mention order, with no
deduplication: it equals the filter-map of the resolver over the mentions,
and two mentions resolving to the same track contribute that track twice. -/
theorem current_tracks_accumulation :
    (∀ (search : PyStr → PyStr → List Track) (mentions : List ScrapedTrack),
      getScrapedTracksFromSpotify search mentions
        = mentions.filterMap (getTrackFromSpotify search))
    ∧ (∀ (search : PyStr → PyStr → List Track) (m₁ m₂ : ScrapedTrack) (t : Track),
        getTrackFromSpotify search m₁ = some t →
        getTrackFromSpotify search m₂ = some t →
        getScrapedTracksFromSpotify search [m₁, m₂] = [t, t]) := by
  have hfm : ∀ (search : PyStr → PyStr → List Track) (mentions : List ScrapedTrack),
      getScrapedTracksFromSpotify search mentions
        = mentions.filterMap (getTrackFromSpotify search) := by
    intro search mentions
    induction mentions with
    | nil => rfl
    | cons m ms ih =>
      simp only [getScrapedTracksFromSpotify, List.filterMap_cons]
      cases h : getTrackFromSpotify search m with
      | none => simpa [h] using ih
      | some t => simpa [h] using ih
  refine ⟨hfm, ?_⟩
  intro search m₁ m₂ t h₁ h₂
  rw [hfm]
  simp [List.filterMap_cons, h₁, h₂]

/-- Witness for C7 at a concrete input. -/
theorem current_tracks_accumulation_witness :
    getTrackFromSpotify singleOracle mentionQ = some trackA
    ∧ getTrackFromSpotify singleOracle mentionS = some trackA
    ∧ getScrapedTracksFromSpotify singleOracle [mentionQ, mentionS]
        = [trackA, trackA] :=
  ⟨by decide, by decide,
    current_tracks_accumulation.2 singleOracle mentionQ mentionS trackA
      (by decide) (by decide)⟩

/-- C7 (counterexample): two distinct mentions that both resolve to the
same track yield a current-track list containing that track twice (length
2), refuting the claim that the collection is deduplicated to size 1. -/
theorem current_tracks_duplicate_counterexample :
    mentionQ ≠ mentionS
    ∧ getTrackFromSpotify singleOracle mentionQ = some trackA
    ∧ getTrackFromSpotify singleOracle mentionS = some trackA
    ∧ getScrapedTracksFromSpotify singleOracle [mentionQ, mentionS]
        = [trackA, trackA]
    ∧ (getScrapedTracksFromSpotify singleOracle [mentionQ, mentionS]).length ≠ 1 := by
  exact ⟨by decide, by decide, by decide, by decide, by decide⟩

/-- C8 (confirmed): when the computed `to_add` list is empty the handler
issues no add-tracks call, when the computed `to_remove` list is empty it
issues no remove-tracks call, and an add or remove call with an empty uri
batch is never issued. -/
theorem handler_skips_empty_batches :
    ∀ (search : PyStr → PyStr → List Track) (spotifyTracks : List Track)
      (mentions : List ScrapedTrack) (description ts : PyStr),
      ((getTracksToAddAndRemove spotifyTracks
          (getScrapedTracksFromSpotify search mentions)).1 = [] →
        ∀ uris, ApiCall.addToPlaylist uris
          ∉ handlerApiCalls search spotifyTracks mentions description ts)
      ∧ ((getTracksToAddAndRemove spotifyTracks
          (getScrapedTracksFromSpotify search mentions)).2 = [] →
        ∀ uris, ApiCall.removeFromPlaylist uris
          ∉ handlerApiCalls search spotifyTracks mentions description ts)
      ∧ ApiCall.addToPlaylist []
          ∉ handlerApiCalls search spotifyTracks mentions description ts
      ∧ ApiCall.removeFromPlaylist []
          ∉ handlerApiCalls search spotifyTracks mentions description ts := by
  intro search spotifyTracks mentions description ts
  unfold handlerApiCalls
  refine ⟨?_, ?_, ?_, ?_⟩
  · intro h1 uris
    by_cases h2 : (getTracksToAddAndRemove spotifyTracks
        (getScrapedTracksFromSpotify search mentions)).2 = []
    · simp [h1, h2]
    · simp [h1, h2]
  · intro h2 uris
    by_cases h1 : (getTracksToAddAndRemove spotifyTracks
        (getScrapedTracksFromSpotify search mentions)).1 = []
    · simp [h1, h2]
    · simp [h1, h2]
  · by_cases h1 : (getTracksToAddAndRemove spotifyTracks
        (getScrapedTracksFromSpotify search mentions)).1 = []
        <;> by_cases h2 : (getTracksToAddAndRemove spotifyTracks
              (getScrapedTracksFromSpotify search mentions)).2 = []
        <;> simp [h1, h2, List.map_eq_nil_iff]
  · by_cases h1 : (getTracksToAddAndRemove spotifyTracks
        (getScrapedTracksFromSpotify search mentions)).1 = []
        <;> by_cases h2 : (getTracksToAddAndRemove spotifyTracks
              (getScrapedTracksFromSpotify search mentions)).2 = []
        <;> simp [h1, h2, List.map_eq_nil_iff]

/-- Witness for C8 at a concrete input with nothing to add. -/
theorem handler_skips_empty_batches_witness :
    (getTracksToAddAndRemove [trackA]
        (getScrapedTracksFromSpotify singleOracle [])).1 = []
    ∧ ApiCall.addToPlaylist []
        ∉ handlerApiCalls singleOracle [trackA] [] ['d'] ['t'] :=
  ⟨by decide,
    (handler_skips_empty_batches singleOracle [trackA] [] ['d'] ['t']).1 (by decide) []⟩

end RadioSixToSpotify
